import Mathlib

/-!
Verification of the iso7816-tlv BER-TLV / SIMPLE-TLV engine.

The definitions below are a shallow embedding of the Rust sources:
bytes are `Nat`s (values `< 256` wherever the code produces them),
`Vec<u8>` is `List Nat`, the `untrusted::Reader` cursor is the list of
not-yet-consumed bytes, and fallible operations return
`Except TlvError _` paired with the cursor left behind (the Rust reader
is mutated in place, so the cursor survives an error).
-/

set_option linter.unusedVariables false

/-- Error enumeration of `src/error.rs`, together with the `InvalidTag`
variant used by `src/ber/tag.rs`. -/
inductive TlvError where
  | InvalidInput
  | InvalidTag
  | TagIsRFU
  | ParseIntError
  | TruncatedInput
  | Inconsistant
  | InvalidLength
deriving DecidableEq

namespace ber

/-- `u64::to_be_bytes`: the eight big-endian bytes of a 64-bit integer. -/
def natToBeBytes8 (v : Nat) : List Nat :=
  [v / 2 ^ 56 % 256, v / 2 ^ 48 % 256, v / 2 ^ 40 % 256, v / 2 ^ 32 % 256,
   v / 2 ^ 24 % 256, v / 2 ^ 16 % 256, v / 2 ^ 8 % 256, v % 256]

/-- The `first_non_zero` loop of `TryFrom<u64> for Tag`: number of leading
zero bytes. -/
def leadingZeroCount : List Nat → Nat
  | [] => 0
  | x :: xs => if x = 0 then leadingZeroCount xs + 1 else 0

/-- `ber::Tag`: a raw 3-byte buffer plus the number of meaningful
(trailing) bytes. -/
structure Tag where
  raw : List Nat
  len : Nat
deriving DecidableEq

/-- `impl TryFrom<u64> for Tag` (src/ber/tag.rs, lines 119-166): strip the
leading zero bytes of the big-endian form and validate by byte count. -/
def Tag.try_from (v : Nat) : Except TlvError Tag :=
  let bytes := natToBeBytes8 v
  let raw := [bytes.getD 5 0, bytes.getD 6 0, bytes.getD 7 0]
  let stripped := bytes.drop (leadingZeroCount bytes)
  match stripped.length with
  | 0 => .error .InvalidTag
  | 1 =>
    if stripped.getD 0 0 &&& 0x7f = 0x7f then .error .InvalidTag
    else .ok ⟨raw, 1⟩
  | 2 =>
    if stripped.getD 1 0 &&& 0x80 = 0x80 then .error .InvalidTag
    else .ok ⟨raw, 2⟩
  | 3 =>
    if stripped.getD 1 0 &&& 0x80 = 0 then .error .InvalidTag
    else if stripped.getD 2 0 &&& 0x80 = 0x80 then .error .InvalidTag
    else .ok ⟨raw, 3⟩
  | _ + 4 => .error .TagIsRFU

/-- `Tag::to_bytes`: the meaningful suffix of the raw buffer. -/
def Tag.to_bytes (t : Tag) : List Nat :=
  t.raw.drop (t.raw.length - t.len)

/-- `Tag::is_constructed`: bit 6 of the first emitted byte. -/
def Tag.is_constructed (t : Tag) : Bool :=
  t.raw.getD (3 - t.len) 0 &&& 0x20 != 0

/-- The continuation-byte loop of `Tag::read`: shift the accumulated value,
read one byte, stop once the continuation bit is clear. -/
def Tag.readCont : Nat → List Nat → Except TlvError Nat × List Nat
  | _, [] => (.error .TruncatedInput, [])
  | value, x :: r =>
    let value := (value <<< 8) % 2 ^ 64 ||| x
    if x &&& 0x80 = 0 then (.ok value, r) else Tag.readCont value r

/-- `Tag::read` (src/ber/tag.rs, lines 80-95). -/
def Tag.read : List Nat → Except TlvError Tag × List Nat
  | [] => (.error .TruncatedInput, [])
  | first :: r =>
    if first &&& 0x7f = 0x7f then
      match Tag.readCont first r with
      | (.error e, r1) => (.error e, r1)
      | (.ok value, r1) => (Tag.try_from value, r1)
    else (Tag.try_from first, r)

example : Tag.try_from 0 = .error .InvalidTag := rfl
example : Tag.try_from 0x7f = .error .InvalidTag := rfl
example : Tag.try_from 0x7f22 = .ok ⟨[0, 0x7f, 0x22], 2⟩ := rfl
example : Tag.try_from 0x7fff22 = .ok ⟨[0x7f, 0xff, 0x22], 3⟩ := rfl
example : Tag.try_from 0x1f = .ok ⟨[0, 0, 0x1f], 1⟩ := rfl
example : Tag.try_from 0x0102 = .ok ⟨[0, 1, 2], 2⟩ := rfl
example : Tag.try_from 0x7f80 = .error .InvalidTag := rfl
example : Tag.try_from 0x7f7f00 = .error .InvalidTag := rfl
example : Tag.try_from 0x7f808000 = .error .TagIsRFU := rfl
example : Tag.read [0x7f, 0xff, 0x22] = (.ok ⟨[0x7f, 0xff, 0x22], 3⟩, []) := rfl
example : Tag.read [0x7f, 0xff] = (.error .TruncatedInput, []) := rfl
example : Tag.read [1, 9, 9] = (.ok ⟨[0, 0, 1], 1⟩, [9, 9]) := rfl

mutual
/-- `ber::Value`: a primitive byte payload or an ordered list of nested
TLV objects. -/
inductive Value where
  | Constructed (l : List Tlv)
  | Primitive (v : List Nat)

/-- `ber::Tlv`: a (tag, value) pair. -/
inductive Tlv where
  | mk (tag : Tag) (value : Value)
end

/-- Field accessor `Tlv.tag`. -/
def Tlv.tag : Tlv → Tag
  | .mk t _ => t

/-- Field accessor `Tlv.value`. -/
def Tlv.value : Tlv → Value
  | .mk _ v => v

/-- `Value::is_constructed`. -/
def Value.is_constructed : Value → Bool
  | .Constructed _ => true
  | .Primitive _ => false

/-- `Tlv::len_length` (src/ber/tlv.rs, lines 46-54); its argument is the
inner length cast to `u32`. -/
def Tlv.len_length (l : Nat) : Nat :=
  if l ≤ 127 then 1
  else if l ≤ 255 then 2
  else if l ≤ 65535 then 3
  else if l ≤ 16777215 then 4
  else 5

mutual
/-- `Value::len_as_bytes`: the serialized length of the value field. -/
def Value.len_as_bytes : Value → Nat
  | .Primitive v => v.length
  | .Constructed tlv => lensSum tlv

/-- The fold `tlv.iter().fold(0, |sum, x| sum + x.len())`. -/
def lensSum : List Tlv → Nat
  | [] => 0
  | t :: ts => Tlv.len t + lensSum ts

/-- `Tlv::len`: full encoded byte count (tag + length field + value), with
the inner length cast to `u32` for the length-field count. -/
def Tlv.len : Tlv → Nat
  | .mk tag value => tag.len + Tlv.len_length (value.len_as_bytes % 2 ^ 32) + value.len_as_bytes
end

/-- Body of `Tlv::inner_len_to_vec` as a function of the inner length `l`:
a single short-form byte when `l < 0x7f`, otherwise `0x80 | k` followed by
the big-endian bytes of `l` with leading zero bytes stripped. -/
def lenEncode (l : Nat) : List Nat :=
  if l < 0x7f then [l]
  else
    let ret := (natToBeBytes8 l).dropWhile (· = 0)
    (0x80 ||| ret.length) :: ret

/-- `Tlv::inner_len_to_vec` (src/ber/tlv.rs, lines 56-70). -/
def Tlv.inner_len_to_vec (t : Tlv) : List Nat :=
  lenEncode t.value.len_as_bytes

mutual
/-- `Tlv::to_vec`: tag bytes, then the length field, then the raw payload
(primitive) or the concatenation of the children's serializations. -/
def Tlv.to_vec : Tlv → List Nat
  | .mk tag value =>
    tag.to_bytes ++ (Tlv.mk tag value).inner_len_to_vec ++
      (match value with
       | .Primitive v => v
       | .Constructed tlv => tlvsToVec tlv)

/-- Serialization of a child list, in order. -/
def tlvsToVec : List Tlv → List Nat
  | [] => []
  | t :: ts => t.to_vec ++ tlvsToVec ts
end

/-- `Tlv::new` (src/ber/tlv.rs, lines 30-44): reject a (tag, value) pair
whose constructed flags disagree. -/
def Tlv.new (tag : Tag) (value : Value) : Except TlvError Tlv :=
  match value with
  | .Constructed _ =>
    if ¬tag.is_constructed then .error .Inconsistant else .ok (.mk tag value)
  | _ =>
    if tag.is_constructed then .error .Inconsistant else .ok (.mk tag value)

/-- The `for _ in 0..n_bytes` loop of `Tlv::read_len`: big-endian
accumulation of `n` length bytes. -/
def readLenBytes : Nat → Nat → List Nat → Except TlvError Nat × List Nat
  | 0, ret, r => (.ok ret, r)
  | n + 1, ret, r =>
    match r with
    | [] => (.error .TruncatedInput, [])
    | x :: r => readLenBytes n ((ret <<< 8) ||| x) r

/-- `Tlv::read_len` (src/ber/tlv.rs, lines 93-109). -/
def Tlv.read_len (r : List Nat) : Except TlvError Nat × List Nat :=
  match r with
  | [] => (.error .TruncatedInput, [])
  | x :: r =>
    if x &&& 0x80 ≠ 0 then
      let n_bytes := x &&& 0x7f
      if n_bytes > 4 then (.error .InvalidLength, r)
      else readLenBytes n_bytes 0 r
    else (.ok x, r)

/-- `untrusted::Reader::read_bytes`: take `len` bytes or fail without
consuming. -/
def readBytes (len : Nat) (r : List Nat) : Except TlvError (List Nat) × List Nat :=
  if len ≤ r.length then (.ok (r.take len), r.drop len) else (.error .TruncatedInput, r)

mutual
/-- The `while val.len_as_bytes() < len` loop of `Tlv::read`: decode child
objects from the cursor until the accumulated encoded length reaches
`len`.  The fuel argument is an artifact of the embedding; it only
decreases and the entry points supply enough of it for every execution
the Rust code performs. -/
def Tlv.readChildren (fuel len : Nat) (val : List Tlv) (r : List Nat) :
    Except TlvError (List Tlv) × List Nat :=
  match fuel with
  | 0 =>
    if (Value.Constructed val).len_as_bytes < len then (.error .TruncatedInput, r)
    else (.ok val, r)
  | f + 1 =>
    if (Value.Constructed val).len_as_bytes < len then
      match Tlv.read f r with
      | (.error e, r1) => (.error e, r1)
      | (.ok tlv, r1) => Tlv.readChildren f len (val ++ [tlv]) r1
    else (.ok val, r)

/-- `Tlv::read` (src/ber/tlv.rs, lines 111-131): tag, declared length,
then child objects (constructed) or a raw payload (primitive), with the
final re-check that the value's length matches the declared one. -/
def Tlv.read (fuel : Nat) (r : List Nat) : Except TlvError Tlv × List Nat :=
  match fuel with
  | 0 => (.error .TruncatedInput, r)
  | f + 1 =>
    match Tag.read r with
    | (.error e, r1) => (.error e, r1)
    | (.ok tag, r1) =>
      match Tlv.read_len r1 with
      | (.error e, r2) => (.error e, r2)
      | (.ok len, r2) =>
        match
          ((if tag.is_constructed then
            match Tlv.readChildren f len [] r2 with
            | (.error e, r3) => (.error e, r3)
            | (.ok val, r3) => (Tlv.new tag (.Constructed val), r3)
          else
            match readBytes len r2 with
            | (.error e, r3) => (.error e, r3)
            | (.ok content, r3) => (Tlv.new tag (.Primitive content), r3)) :
            Except TlvError Tlv × List Nat) with
        | (.error e, r3) => (.error e, r3)
        | (.ok ret, r3) =>
          if ret.value.len_as_bytes ≠ len then (.error .Inconsistant, r3)
          else (.ok ret, r3)
end

/-- `Tlv::parse` (src/ber/tlv.rs, lines 135-141): decode one object and
return it with the unprocessed bytes.  The fuel `input.length + 1` always
exceeds what the recursion can consume, since every nested decode first
consumes input bytes. -/
def Tlv.parse (input : List Nat) : Except TlvError Tlv × List Nat :=
  Tlv.read (input.length + 1) input

/-- `Tlv::from_bytes` (src/ber/tlv.rs, lines 145-152). -/
def Tlv.from_bytes (input : List Nat) : Except TlvError Tlv :=
  let p := Tlv.parse input
  if p.2.length ≠ 0 then .error .InvalidInput else p.1

example : Tlv.parse [1, 1, 0] = (.ok (.mk ⟨[0, 0, 1], 1⟩ (.Primitive [0])), []) := rfl
example : Tlv.from_bytes [1, 1, 0] = .ok (.mk ⟨[0, 0, 1], 1⟩ (.Primitive [0])) := rfl
example : Tlv.parse [1, 1, 0, 0xff, 0xff] =
    (.ok (.mk ⟨[0, 0, 1], 1⟩ (.Primitive [0])), [0xff, 0xff]) := rfl
example : Tlv.from_bytes [1, 1, 0, 0xff, 0xff] = .error .InvalidInput := rfl
example : Tlv.from_bytes [0x22, 2, 1, 1, 0] = .error .Inconsistant := rfl
example : Tlv.from_bytes [0x7f, 0x22, 9, 1, 1, 0, 1, 1, 0, 1, 1, 0] =
    .ok (.mk ⟨[0, 0x7f, 0x22], 2⟩ (.Constructed
      [.mk ⟨[0, 0, 1], 1⟩ (.Primitive [0]), .mk ⟨[0, 0, 1], 1⟩ (.Primitive [0]),
       .mk ⟨[0, 0, 1], 1⟩ (.Primitive [0])])) := rfl
example : (Tlv.mk ⟨[0, 0x7f, 0x22], 2⟩ (.Constructed
      [.mk ⟨[0, 0, 1], 1⟩ (.Primitive [0]), .mk ⟨[0, 0, 1], 1⟩ (.Primitive [0]),
       .mk ⟨[0, 0, 1], 1⟩ (.Primitive [0])])).to_vec =
    [0x7f, 0x22, 9, 1, 1, 0, 1, 1, 0, 1, 1, 0] := rfl
example : lenEncode 127 = [0x81, 0x7f] := rfl
example : lenEncode 126 = [126] := rfl
example : lenEncode 255 = [0x81, 0xff] := rfl
example : lenEncode 256 = [0x82, 1, 0] := rfl

end ber

namespace simple

/-- `simple::Tag`: a single byte. -/
structure Tag where
  val : Nat
deriving DecidableEq

/-- `impl TryFrom<u8> for simple::Tag`: `0x00` and `0xFF` are invalid. -/
def Tag.try_from (v : Nat) : Except TlvError Tag :=
  if v = 0x00 ∨ v = 0xff then .error .InvalidInput else .ok ⟨v⟩

/-- `simple::Tlv`. -/
structure Tlv where
  tag : Tag
  value : List Nat
deriving DecidableEq

/-- `simple::Tlv::new` (src/simple.rs, lines 110-116): the documented
maximum payload is 65 535 bytes, the implemented check rejects only
payloads longer than 65 536 bytes. -/
def Tlv.new (tag : Tag) (value : List Nat) : Except TlvError Tlv :=
  if value.length > 65536 then .error .InvalidLength else .ok ⟨tag, value⟩

/-- `simple::Tlv::to_vec` (src/simple.rs, lines 139-149): tag byte, then
either the single length byte or `0xFF` plus `(len >> 8) as u8` when
`len >= 255`, then `len as u8`, then the payload. -/
def Tlv.to_vec (t : Tlv) : List Nat :=
  let len := t.value.length
  t.tag.val ::
    ((if 255 ≤ len then [0xff, (len >>> 8) % 256] else []) ++ (len % 256 :: t.value))

/-- `simple::Tlv::read_len`: marker `0xFF` introduces two big-endian
length bytes. -/
def Tlv.read_len (r : List Nat) : Except TlvError Nat × List Nat :=
  match r with
  | [] => (.error .TruncatedInput, [])
  | x :: r =>
    if x = 0xff then
      match r with
      | x1 :: x2 :: r => (.ok ((0 <<< 8 ||| x1) <<< 8 ||| x2), r)
      | _ => (.error .TruncatedInput, [])
    else (.ok x, r)

/-- `simple::Tlv::read`: tag byte, length, then exactly `len` payload
bytes. -/
def Tlv.read (r : List Nat) : Except TlvError Tlv × List Nat :=
  match r with
  | [] => (.error .TruncatedInput, [])
  | b :: r =>
    match Tag.try_from b with
    | .error e => (.error e, r)
    | .ok tag =>
      match Tlv.read_len r with
      | (.error e, r1) => (.error e, r1)
      | (.ok len, r1) =>
        match ber.readBytes len r1 with
        | (.error e, r2) => (.error e, r2)
        | (.ok content, r2) => (.ok ⟨tag, content⟩, r2)

/-- `simple::Tlv::parse`. -/
def Tlv.parse (input : List Nat) : Except TlvError Tlv × List Nat :=
  Tlv.read input

/-- `simple::Tlv::from_bytes`. -/
def Tlv.from_bytes (input : List Nat) : Except TlvError Tlv :=
  let p := Tlv.parse input
  if p.2.isEmpty then p.1 else .error .InvalidInput

example : Tlv.to_vec ⟨⟨1⟩, [7, 7]⟩ = [1, 2, 7, 7] := rfl
example : Tlv.from_bytes [1, 2, 7, 7] = .ok ⟨⟨1⟩, [7, 7]⟩ := rfl
example : Tlv.from_bytes [1, 0xff, 0, 2, 7, 7] = .ok ⟨⟨1⟩, [7, 7]⟩ := rfl

end simple

namespace ber

/-- Big-endian value of a byte list (specification-side helper). -/
def beNat (l : List Nat) : Nat :=
  l.foldl (fun a b => a * 256 + b) 0

lemma and127_eq (x : Nat) : x &&& 127 = x % 128 := by
  have h := Nat.and_pow_two_sub_one_eq_mod x 7
  norm_num at h
  exact h

lemma and128_eq (x : Nat) : x &&& 128 = 128 * (x / 128 % 2) := by
  have h := Nat.and_two_pow x 7
  rw [Nat.testBit_to_div_mod] at h
  rcases Nat.mod_two_eq_zero_or_one (x / 2 ^ 7) with h0 | h0 <;>
    rw [h0] at h <;> norm_num at h <;> norm_num [h] <;> omega

lemma shl8_lor_eq (a b : Nat) (hb : b < 256) : a <<< 8 ||| b = 256 * a + b := by
  have hb' : b < 2 ^ 8 := by omega
  calc a <<< 8 ||| b = 2 ^ 8 * a ||| b := by rw [Nat.shiftLeft_eq, mul_comm]
    _ = 2 ^ 8 * a + b := (Nat.mul_add_lt_is_or hb' a).symm
    _ = 256 * a + b := by norm_num

lemma readLenBytes_spec (bs : List Nat) :
    ∀ (ret : Nat) (rest : List Nat), (∀ b ∈ bs, b < 256) →
      readLenBytes bs.length ret (bs ++ rest) =
        (.ok (bs.foldl (fun a b => a * 256 + b) ret), rest) := by
  induction bs with
  | nil => intro ret rest hb; rfl
  | cons b bs ih =>
    intro ret rest hb
    have hb0 : b < 256 := hb b (by simp)
    simp only [List.length_cons, List.cons_append, readLenBytes, List.foldl_cons]
    rw [shl8_lor_eq ret b hb0, show 256 * ret + b = ret * 256 + b by ring]
    exact ih _ rest fun x hx => hb x (by simp [hx])

lemma natToBeBytes8_eq1 (l : Nat) (h : l < 256) :
    natToBeBytes8 l = [0, 0, 0, 0, 0, 0, 0, l] := by
  simp only [natToBeBytes8, List.cons.injEq, and_true]
  omega

lemma natToBeBytes8_eq2 (l : Nat) (h1 : 256 ≤ l) (h2 : l < 65536) :
    natToBeBytes8 l = [0, 0, 0, 0, 0, 0, l / 256, l % 256] := by
  simp only [natToBeBytes8, List.cons.injEq, and_true]
  omega

lemma natToBeBytes8_eq3 (l : Nat) (h1 : 65536 ≤ l) (h2 : l < 16777216) :
    natToBeBytes8 l = [0, 0, 0, 0, 0, l / 65536, l / 256 % 256, l % 256] := by
  simp only [natToBeBytes8, List.cons.injEq, and_true]
  omega

lemma natToBeBytes8_eq4 (l : Nat) (h1 : 16777216 ≤ l) (h2 : l < 4294967296) :
    natToBeBytes8 l = [0, 0, 0, 0, l / 16777216, l / 65536 % 256, l / 256 % 256, l % 256] := by
  simp only [natToBeBytes8, List.cons.injEq, and_true]
  omega

set_option maxRecDepth 8000 in
set_option maxHeartbeats 2000000 in
lemma read_len_lenEncode (l : Nat) (hl : l < 2 ^ 32) (rest : List Nat) :
    Tlv.read_len (lenEncode l ++ rest) = (.ok l, rest) := by
  by_cases h : l < 0x7f
  · simp only [lenEncode, if_pos h, List.cons_append, List.nil_append, Tlv.read_len]
    have h80 : l &&& 0x80 = 0 := by
      rw [show (0x80 : Nat) = 128 from rfl, and128_eq]; omega
    simp [h80]
  · push_neg at h
    rcases lt_or_ge l 256 with h2 | h2
    · have e := natToBeBytes8_eq1 l (by omega)
      have hs := readLenBytes_spec [l] 0 rest (by intro b hb; simp at hb; omega)
      simp only [List.length_cons, List.length_nil, List.cons_append, List.nil_append,
        List.foldl_cons, List.foldl_nil, zero_mul, zero_add] at hs
      simp [lenEncode, e, show ¬l < 0x7f by omega, show ¬l = 0 by omega, Tlv.read_len, hs,
        show (129 : Nat) &&& 127 = 1 by decide, show ¬(4 : Nat) < 1 by decide]
    · rcases lt_or_ge l 65536 with h3 | h3
      · have e := natToBeBytes8_eq2 l (by omega) (by omega)
        have hs := readLenBytes_spec [l / 256, l % 256] 0 rest
          (by intro b hb; simp at hb; rcases hb with hb | hb <;> omega)
        simp only [List.length_cons, List.length_nil, List.cons_append, List.nil_append,
          List.foldl_cons, List.foldl_nil, zero_mul, zero_add] at hs
        have hv : l / 256 * 256 + l % 256 = l := by omega
        rw [hv] at hs
        simp [lenEncode, e, show ¬l < 0x7f by omega, show ¬l / 256 = 0 by omega,
          Tlv.read_len, hs, show (130 : Nat) &&& 127 = 2 by decide,
          show (130 : Nat) &&& 128 = 128 by decide, show ¬(4 : Nat) < 2 by decide]
      · rcases lt_or_ge l 16777216 with h4 | h4
        · have e := natToBeBytes8_eq3 l (by omega) (by omega)
          have hs := readLenBytes_spec [l / 65536, l / 256 % 256, l % 256] 0 rest
            (by intro b hb; simp at hb; rcases hb with hb | hb | hb <;> omega)
          simp only [List.length_cons, List.length_nil, List.cons_append, List.nil_append,
            List.foldl_cons, List.foldl_nil, zero_mul, zero_add] at hs
          have hv : (l / 65536 * 256 + l / 256 % 256) * 256 + l % 256 = l := by omega
          rw [hv] at hs
          simp [lenEncode, e, show ¬l < 0x7f by omega, show ¬l / 65536 = 0 by omega,
            Tlv.read_len, hs, show (131 : Nat) &&& 127 = 3 by decide,
            show (131 : Nat) &&& 128 = 128 by decide, show ¬(4 : Nat) < 3 by decide]
        · have e := natToBeBytes8_eq4 l (by omega) (by omega)
          have hs := readLenBytes_spec [l / 16777216, l / 65536 % 256, l / 256 % 256, l % 256] 0 rest
            (by intro b hb; simp at hb; rcases hb with hb | hb | hb | hb <;> omega)
          simp only [List.length_cons, List.length_nil, List.cons_append, List.nil_append,
            List.foldl_cons, List.foldl_nil, zero_mul, zero_add] at hs
          have hv : ((l / 16777216 * 256 + l / 65536 % 256) * 256 + l / 256 % 256) * 256 + l % 256 = l := by
            omega
          rw [hv] at hs
          simp [lenEncode, e, show ¬l < 0x7f by omega, show ¬l / 16777216 = 0 by omega,
            Tlv.read_len, hs, show (132 : Nat) &&& 127 = 4 by decide,
            show (132 : Nat) &&& 128 = 128 by decide, show ¬(4 : Nat) < 4 by decide]

lemma lzc_entries_zero (l : List Nat) :
    ∀ i, i < leadingZeroCount l → l.getD i 0 = 0 := by
  induction l with
  | nil => intro i hi; simp [leadingZeroCount] at hi
  | cons x xs ih =>
    intro i hi
    by_cases hx : x = 0
    · cases i with
      | zero => simpa using hx
      | succ i =>
        simp only [leadingZeroCount, if_pos hx] at hi
        simpa using ih i (by omega)
    · simp [leadingZeroCount, hx] at hi

lemma try_from_eq0 : Tag.try_from 0 = .error .InvalidTag := rfl

lemma try_from_eq1 (v : Nat) (h0 : 0 < v) (h1 : v < 256) :
    Tag.try_from v =
      if v &&& 0x7f = 0x7f then .error .InvalidTag else .ok ⟨[0, 0, v], 1⟩ := by
  have hlzc : leadingZeroCount [0, 0, 0, 0, 0, 0, 0, v] = 7 := by
    simp [leadingZeroCount, show ¬v = 0 by omega]
  simp only [Tag.try_from]
  rw [natToBeBytes8_eq1 v h1, hlzc]
  rfl

lemma try_from_eq2 (v : Nat) (h0 : 256 ≤ v) (h1 : v < 65536) :
    Tag.try_from v =
      if v % 256 &&& 0x80 = 0x80 then .error .InvalidTag
      else .ok ⟨[0, v / 256, v % 256], 2⟩ := by
  have hlzc : leadingZeroCount [0, 0, 0, 0, 0, 0, v / 256, v % 256] = 6 := by
    simp [leadingZeroCount, show ¬v / 256 = 0 by omega]
  simp only [Tag.try_from]
  rw [natToBeBytes8_eq2 v h0 h1, hlzc]
  rfl

lemma try_from_eq3 (v : Nat) (h0 : 65536 ≤ v) (h1 : v < 16777216) :
    Tag.try_from v =
      if v / 256 % 256 &&& 0x80 = 0 then .error .InvalidTag
      else if v % 256 &&& 0x80 = 0x80 then .error .InvalidTag
      else .ok ⟨[v / 65536, v / 256 % 256, v % 256], 3⟩ := by
  have hlzc : leadingZeroCount [0, 0, 0, 0, 0, v / 65536, v / 256 % 256, v % 256] = 5 := by
    simp [leadingZeroCount, show ¬v / 65536 = 0 by omega]
  simp only [Tag.try_from]
  rw [natToBeBytes8_eq3 v h0 h1, hlzc]
  rfl

lemma try_from_eq4plus (v : Nat) (h0 : 16777216 ≤ v) (h1 : v < 2 ^ 64) :
    Tag.try_from v = .error .TagIsRFU := by
  have hn : leadingZeroCount (natToBeBytes8 v) ≤ 4 := by
    by_contra hgt
    push_neg at hgt
    have z0 := lzc_entries_zero (natToBeBytes8 v) 0 (by omega)
    have z1 := lzc_entries_zero (natToBeBytes8 v) 1 (by omega)
    have z2 := lzc_entries_zero (natToBeBytes8 v) 2 (by omega)
    have z3 := lzc_entries_zero (natToBeBytes8 v) 3 (by omega)
    have z4 := lzc_entries_zero (natToBeBytes8 v) 4 (by omega)
    rw [show (natToBeBytes8 v).getD 0 0 = v / 2 ^ 56 % 256 from rfl] at z0
    rw [show (natToBeBytes8 v).getD 1 0 = v / 2 ^ 48 % 256 from rfl] at z1
    rw [show (natToBeBytes8 v).getD 2 0 = v / 2 ^ 40 % 256 from rfl] at z2
    rw [show (natToBeBytes8 v).getD 3 0 = v / 2 ^ 32 % 256 from rfl] at z3
    rw [show (natToBeBytes8 v).getD 4 0 = v / 2 ^ 24 % 256 from rfl] at z4
    omega
  have hk : ((natToBeBytes8 v).drop (leadingZeroCount (natToBeBytes8 v))).length =
      (4 - leadingZeroCount (natToBeBytes8 v)) + 4 := by
    rw [List.length_drop, show (natToBeBytes8 v).length = 8 from rfl]
    omega
  simp only [Tag.try_from]
  rw [hk]

/-- Tags for which decoding inverts serialization: the well-formedness that
`TryFrom<u64>` enforces, strengthened by the requirement that a multi-byte
tag's first byte carries the `0x7F` continuation marker `Tag::read` looks
for. -/
def Tag.Valid (t : Tag) : Prop :=
  (∃ b0, t.raw = [0, 0, b0] ∧ t.len = 1 ∧ b0 ≠ 0 ∧ b0 < 256 ∧ b0 &&& 0x7f ≠ 0x7f) ∨
  (∃ b0 b1, t.raw = [0, b0, b1] ∧ t.len = 2 ∧ b0 ≠ 0 ∧ b0 < 256 ∧ b1 < 256 ∧
    b0 &&& 0x7f = 0x7f ∧ b1 &&& 0x80 ≠ 0x80) ∨
  (∃ b0 b1 b2, t.raw = [b0, b1, b2] ∧ t.len = 3 ∧ b0 ≠ 0 ∧ b0 < 256 ∧ b1 < 256 ∧ b2 < 256 ∧
    b0 &&& 0x7f = 0x7f ∧ b1 &&& 0x80 = 0x80 ∧ b2 &&& 0x80 ≠ 0x80)

lemma tag_read_to_bytes (t : Tag) (hv : Tag.Valid t) (rest : List Nat) :
    Tag.read (t.to_bytes ++ rest) = (.ok t, rest) := by
  obtain ⟨raw, len⟩ := t
  rcases hv with ⟨b0, hraw, hlen, hne, hlt, hmask⟩ |
    ⟨b0, b1, hraw, hlen, hne, hlt0, hlt1, hmask, hm1⟩ |
    ⟨b0, b1, b2, hraw, hlen, hne, hlt0, hlt1, hlt2, hmask, hm1, hm2⟩ <;>
      simp only [Tag.mk.injEq] at hraw hlen <;> subst hraw <;> subst hlen
  · show Tag.read (b0 :: rest) = _
    simp only [Tag.read, if_neg hmask]
    rw [try_from_eq1 b0 (by omega) hlt, if_neg hmask]
  · show Tag.read (b0 :: b1 :: rest) = _
    have hstop : b1 &&& 0x80 = 0 := by
      have := and128_eq b1
      omega
    have hmod : (b0 <<< 8) % 2 ^ 64 = b0 <<< 8 := by
      apply Nat.mod_eq_of_lt
      rw [Nat.shiftLeft_eq]
      omega
    simp only [Tag.read, if_pos hmask, Tag.readCont, hmod,
      shl8_lor_eq b0 b1 hlt1, hstop, eq_self_iff_true, if_true]
    rw [try_from_eq2 (256 * b0 + b1) (by omega) (by omega)]
    have e1 : (256 * b0 + b1) % 256 = b1 := by omega
    have e2 : (256 * b0 + b1) / 256 = b0 := by omega
    rw [e1, e2, if_neg hm1]
  · show Tag.read (b0 :: b1 :: b2 :: rest) = _
    have hgo : ¬b1 &&& 0x80 = 0 := by rw [hm1]; norm_num
    have hstop : b2 &&& 0x80 = 0 := by
      have := and128_eq b2
      omega
    have hmod : (b0 <<< 8) % 2 ^ 64 = b0 <<< 8 := by
      apply Nat.mod_eq_of_lt
      rw [Nat.shiftLeft_eq]
      omega
    have hmod2 : ((256 * b0 + b1) <<< 8) % 2 ^ 64 = (256 * b0 + b1) <<< 8 := by
      apply Nat.mod_eq_of_lt
      rw [Nat.shiftLeft_eq]
      omega
    simp only [Tag.read, if_pos hmask, Tag.readCont, hmod,
      shl8_lor_eq b0 b1 hlt1, if_neg hgo, hmod2,
      shl8_lor_eq (256 * b0 + b1) b2 hlt2, hstop, eq_self_iff_true, if_true]
    rw [try_from_eq3 (256 * (256 * b0 + b1) + b2) (by omega) (by omega)]
    have e1 : (256 * (256 * b0 + b1) + b2) % 256 = b2 := by omega
    have e2 : (256 * (256 * b0 + b1) + b2) / 256 % 256 = b1 := by omega
    have e3 : (256 * (256 * b0 + b1) + b2) / 65536 = b0 := by omega
    rw [e1, e2, e3, if_neg (by rw [hm1]; norm_num), if_neg hm2]

lemma readLenBytes_ne_invalid (n : Nat) :
    ∀ (ret : Nat) (r : List Nat), (readLenBytes n ret r).1 ≠ .error .InvalidLength := by
  induction n with
  | zero => intro ret r; simp [readLenBytes]
  | succ n ih =>
    intro ret r
    cases r with
    | nil => simp [readLenBytes]
    | cons x r => simpa [readLenBytes] using ih _ r

mutual
/-- Fuel bound for the embedded decoder: two units per node suffice. -/
def Tlv.weight : Tlv → Nat
  | .mk _ (.Primitive _) => 2
  | .mk _ (.Constructed l) => 2 + weightSum l

def weightSum : List Tlv → Nat
  | [] => 0
  | t :: ts => Tlv.weight t + weightSum ts
end

/-- Well-formed TLV trees: every tag is valid and readable, the constructed
flags agree, and every value length stays below `2^32` (beyond that the
length codec emits a five-byte field the decoder rejects). -/
inductive Tlv.Wf : Tlv → Prop
  | prim (tag : Tag) (v : List Nat) : Tag.Valid tag → tag.is_constructed = false →
      v.length < 2 ^ 32 → Tlv.Wf (.mk tag (.Primitive v))
  | cons (tag : Tag) (l : List Tlv) : Tag.Valid tag → tag.is_constructed = true →
      (∀ c ∈ l, Tlv.Wf c) → (Value.Constructed l).len_as_bytes < 2 ^ 32 →
      Tlv.Wf (.mk tag (.Constructed l))

lemma len_length_pos (l : Nat) : 0 < Tlv.len_length l := by
  unfold Tlv.len_length
  split_ifs <;> norm_num

lemma tlv_len_pos (t : Tlv) : 0 < t.len := by
  obtain ⟨tag, v⟩ := t
  have := len_length_pos (v.len_as_bytes % 2 ^ 32)
  simp only [Tlv.len]
  omega

lemma weight_two_le (t : Tlv) : 2 ≤ t.weight := by
  obtain ⟨tag, v⟩ := t
  cases v <;> simp only [Tlv.weight] <;> omega

lemma lensSum_append (a b : List Tlv) : lensSum (a ++ b) = lensSum a + lensSum b := by
  induction a with
  | nil => simp [lensSum]
  | cons x xs ih =>
    show Tlv.len x + lensSum (xs ++ b) = Tlv.len x + lensSum xs + lensSum b
    rw [ih]
    omega

lemma readBytes_append (v rest : List Nat) : readBytes v.length (v ++ rest) = (.ok v, rest) := by
  simp [readBytes, List.take_left, List.drop_left]

lemma readChildren_to_vec (cs : List Tlv) :
    ∀ (done : List Tlv) (len : Nat) (rest : List Nat) (fuel : Nat),
      (∀ c ∈ cs, ∀ (rest2 : List Nat) (fuel2 : Nat), Tlv.weight c ≤ fuel2 →
          Tlv.read fuel2 (c.to_vec ++ rest2) = (.ok c, rest2)) →
      weightSum cs + 1 ≤ fuel →
      lensSum done + lensSum cs = len →
      Tlv.readChildren fuel len done (tlvsToVec cs ++ rest) = (.ok (done ++ cs), rest) := by
  induction cs with
  | nil =>
    intro done len rest fuel hrb hf hsum
    simp only [lensSum] at hsum
    simp only [tlvsToVec, List.nil_append]
    cases fuel <;>
      simp only [Tlv.readChildren, Value.len_as_bytes] <;>
      rw [if_neg (by omega : ¬lensSum done < len)] <;>
      simp
  | cons c cs ih =>
    intro done len rest fuel hrb hf hsum
    simp only [lensSum] at hsum
    simp only [weightSum] at hf
    have hcpos := tlv_len_pos c
    have hcw := weight_two_le c
    obtain ⟨f, rfl⟩ : ∃ f, fuel = f + 1 := ⟨fuel - 1, by omega⟩
    simp only [tlvsToVec, List.append_assoc, Tlv.readChildren, Value.len_as_bytes]
    rw [if_pos (by omega : lensSum done < len)]
    simp only [hrb c (by simp) (tlvsToVec cs ++ rest) f (by omega)]
    rw [show done ++ c :: cs = (done ++ [c]) ++ cs by simp]
    exact ih (done ++ [c]) len rest f (fun c' hc' => hrb c' (by simp [hc'])) (by omega)
      (by rw [lensSum_append]; simp only [lensSum]; omega)

lemma read_to_vec (t : Tlv) (h : Tlv.Wf t) :
    ∀ (rest : List Nat) (fuel : Nat), Tlv.weight t ≤ fuel →
      Tlv.read fuel (t.to_vec ++ rest) = (.ok t, rest) := by
  induction h with
  | prim tag v hval hc hlen =>
    intro rest fuel hf
    simp only [Tlv.weight] at hf
    obtain ⟨f, rfl⟩ : ∃ f, fuel = f + 1 := ⟨fuel - 1, by omega⟩
    simp only [Tlv.to_vec, Tlv.inner_len_to_vec, Tlv.value, Value.len_as_bytes,
      List.append_assoc, Tlv.read, tag_read_to_bytes tag hval,
      read_len_lenEncode v.length hlen, hc, Bool.false_eq_true, if_false,
      readBytes_append, Tlv.new, ne_eq, eq_self_iff_true, not_true, if_true]
  | cons tag l hval hc hwf hlen ih =>
    intro rest fuel hf
    simp only [Tlv.weight] at hf
    obtain ⟨f, rfl⟩ : ∃ f, fuel = f + 1 := ⟨fuel - 1, by omega⟩
    simp only [Value.len_as_bytes] at hlen
    simp only [Tlv.to_vec, Tlv.inner_len_to_vec, Tlv.value, Value.len_as_bytes,
      List.append_assoc, Tlv.read, tag_read_to_bytes tag hval,
      read_len_lenEncode (lensSum l) hlen, hc, if_true,
      readChildren_to_vec l [] (lensSum l) rest f ih (by omega) (by simp [lensSum]),
      List.nil_append, Tlv.new, Bool.true_eq_false, not_true, if_false, ne_eq,
      eq_self_iff_true]

lemma tag_to_bytes_len (t : Tag) (hv : Tag.Valid t) : t.to_bytes.length = t.len := by
  obtain ⟨raw, len⟩ := t
  rcases hv with ⟨b0, hraw, hlen, -⟩ | ⟨b0, b1, hraw, hlen, -⟩ | ⟨b0, b1, b2, hraw, hlen, -⟩ <;>
    simp only [Tag.mk.injEq] at hraw hlen <;> subst hraw <;> subst hlen <;> rfl

lemma lenEncode_length_pos (l : Nat) : 0 < (lenEncode l).length := by
  unfold lenEncode
  split <;> simp

lemma tlvsToVec_length (l : List Tlv) (h : ∀ c ∈ l, Tlv.weight c ≤ c.to_vec.length) :
    weightSum l ≤ (tlvsToVec l).length := by
  induction l with
  | nil => simp [weightSum, tlvsToVec]
  | cons c cs ih =>
    simp only [weightSum, tlvsToVec, List.length_append]
    have h1 := h c (by simp)
    have h2 := ih fun c' hc' => h c' (by simp [hc'])
    omega

lemma weight_le_to_vec (t : Tlv) (h : Tlv.Wf t) : Tlv.weight t ≤ t.to_vec.length := by
  induction h with
  | prim tag v hval hc hlen =>
    have h1 := tag_to_bytes_len tag hval
    have h2 : 0 < tag.len := by
      rcases hval with ⟨b0, -, hlen1, -⟩ | ⟨b0, b1, -, hlen1, -⟩ | ⟨b0, b1, b2, -, hlen1, -⟩ <;>
        omega
    have h3 := lenEncode_length_pos v.length
    simp only [Tlv.weight, Tlv.to_vec, Tlv.inner_len_to_vec, Tlv.value, Value.len_as_bytes,
      List.length_append]
    omega
  | cons tag l hval hc hwf hlen ih =>
    have h1 := tag_to_bytes_len tag hval
    have h2 : 0 < tag.len := by
      rcases hval with ⟨b0, -, hlen1, -⟩ | ⟨b0, b1, -, hlen1, -⟩ | ⟨b0, b1, b2, -, hlen1, -⟩ <;>
        omega
    have h3 := lenEncode_length_pos (lensSum l)
    have h4 := tlvsToVec_length l ih
    simp only [Tlv.weight, Tlv.to_vec, Tlv.inner_len_to_vec, Tlv.value, Value.len_as_bytes,
      List.length_append]
    omega

/-- C1 (counterexample): `Tag::try_from` accepts `0x0102` as a two-byte tag
(its second byte has a clear top bit, which is all the two-byte validation
checks), `Tlv::new` accepts it with an empty primitive value, but the
serialization `[0x01, 0x02, 0x00]` re-parses as tag `0x01` with declared
length `2`, so `Tlv::from_bytes` fails instead of returning the node:
the claimed round trip is false for this validly constructed node. -/
theorem c1_counterexample :
    Tag.try_from 0x0102 = .ok ⟨[0, 1, 2], 2⟩ ∧
    Tlv.new ⟨[0, 1, 2], 2⟩ (.Primitive []) = .ok (.mk ⟨[0, 1, 2], 2⟩ (.Primitive [])) ∧
    (Tlv.mk ⟨[0, 1, 2], 2⟩ (.Primitive [])).to_vec = [1, 2, 0] ∧
    Tlv.from_bytes ((Tlv.mk ⟨[0, 1, 2], 2⟩ (.Primitive [])).to_vec) = .error .InvalidInput :=
  ⟨rfl, rfl, rfl, rfl⟩

/-- C1 (amended): for every well-formed node — tags valid for
`TryFrom<u64>` whose multi-byte forms moreover start with the `0x7F`
continuation marker that `Tag::read` requires, constructed flags
consistent, and every value length below `2^32` — decoding the
serialization with `Tlv::from_bytes` returns the identical node. -/
theorem c1_round_trip (t : Tlv) (h : Tlv.Wf t) : Tlv.from_bytes t.to_vec = .ok t := by
  have h1 := read_to_vec t h [] (t.to_vec.length + 1)
    (by have := weight_le_to_vec t h; omega)
  rw [List.append_nil] at h1
  simp [Tlv.from_bytes, Tlv.parse, h1]

/-- C1 (witness): the round trip at a concrete constructed node. -/
theorem c1_witness :
    Tlv.Wf (.mk ⟨[0, 0, 0x22], 1⟩ (.Constructed [.mk ⟨[0, 0, 1], 1⟩ (.Primitive [0])])) ∧
    Tlv.from_bytes ((Tlv.mk ⟨[0, 0, 0x22], 1⟩
        (.Constructed [.mk ⟨[0, 0, 1], 1⟩ (.Primitive [0])])).to_vec) =
      .ok (.mk ⟨[0, 0, 0x22], 1⟩ (.Constructed [.mk ⟨[0, 0, 1], 1⟩ (.Primitive [0])])) := by
  have hchild : Tlv.Wf (.mk ⟨[0, 0, 1], 1⟩ (.Primitive [0])) :=
    Tlv.Wf.prim _ _ (Or.inl ⟨1, rfl, rfl, by decide, by decide, by decide⟩) (by decide)
      (by norm_num)
  have hwf : Tlv.Wf (.mk ⟨[0, 0, 0x22], 1⟩
      (.Constructed [.mk ⟨[0, 0, 1], 1⟩ (.Primitive [0])])) := by
    refine Tlv.Wf.cons _ _ (Or.inl ⟨0x22, rfl, rfl, by decide, by decide, by decide⟩)
      (by decide) ?_ (by norm_num [Value.len_as_bytes, lensSum, Tlv.len, Tlv.len_length])
    intro c hc
    simp only [List.mem_singleton] at hc
    subst hc
    exact hchild
  exact ⟨hwf, c1_round_trip _ hwf⟩

/-- Minimal big-endian byte representation of an integer
(specification-side helper: no leading zero bytes, empty for 0). -/
def beDigits (v : Nat) : List Nat :=
  if v = 0 then [] else beDigits (v / 256) ++ [v % 256]
termination_by v
decreasing_by exact Nat.div_lt_self (by omega) (by omega)

lemma beDigits_eq1 (v : Nat) (h0 : 0 < v) (h1 : v < 256) : beDigits v = [v] := by
  rw [beDigits.eq_def, if_neg (by omega)]
  rw [show v / 256 = 0 by omega, show beDigits 0 = [] by rw [beDigits.eq_def]; simp]
  simp
  omega

lemma beDigits_eq2 (v : Nat) (h0 : 256 ≤ v) (h1 : v < 65536) :
    beDigits v = [v / 256, v % 256] := by
  rw [beDigits.eq_def, if_neg (by omega)]
  rw [beDigits_eq1 (v / 256) (by omega) (by omega)]
  rfl

lemma beDigits_eq3 (v : Nat) (h0 : 65536 ≤ v) (h1 : v < 16777216) :
    beDigits v = [v / 65536, v / 256 % 256, v % 256] := by
  rw [beDigits.eq_def, if_neg (by omega)]
  rw [beDigits_eq2 (v / 256) (by omega) (by omega)]
  rw [show v / 256 / 256 = v / 65536 by omega, show v / 256 % 256 = v / 256 % 256 from rfl]
  rfl

/-- C3 (counterexample): the integer `0x1F` has all of its low five bits
set, so the claim predicts rejection of the one-byte form, but
`Tag::try_from` only rejects a one-byte tag whose low seven bits are all
set and accepts `0x1F`. -/
theorem c3_counterexample :
    (0x1f &&& 0x1f : Nat) = 0x1f ∧ Tag.try_from 0x1f = .ok ⟨[0, 0, 0x1f], 1⟩ :=
  ⟨by decide, rfl⟩

/-- C3 (amended): constructing a tag from an unsigned 64-bit integer strips
the leading zero bytes of its big-endian form; a 0-byte result is rejected
as an invalid tag; a 1-byte result is rejected exactly when its low seven
bits are `0x7F`; a 2-byte result is rejected exactly when the second
byte's top bit is set; a 3-byte result is rejected exactly when the second
byte's top bit is clear or the third byte's top bit is set; 4 or more
bytes are rejected with the reserved-for-future-use error; every accepted
integer yields a tag serializing to exactly the stripped big-endian
bytes. -/
theorem c3_try_from_ranges (v : Nat) (hv : v < 2 ^ 64) :
    (v = 0 → Tag.try_from v = .error .InvalidTag) ∧
    (0 < v → v < 2 ^ 8 →
      (v &&& 0x7f = 0x7f → Tag.try_from v = .error .InvalidTag) ∧
      (v &&& 0x7f ≠ 0x7f → ∃ t, Tag.try_from v = .ok t ∧ t.to_bytes = beDigits v)) ∧
    (2 ^ 8 ≤ v → v < 2 ^ 16 →
      (v % 256 &&& 0x80 = 0x80 → Tag.try_from v = .error .InvalidTag) ∧
      (v % 256 &&& 0x80 ≠ 0x80 → ∃ t, Tag.try_from v = .ok t ∧ t.to_bytes = beDigits v)) ∧
    (2 ^ 16 ≤ v → v < 2 ^ 24 →
      ((v / 256 % 256 &&& 0x80 = 0 ∨ v % 256 &&& 0x80 = 0x80) →
        Tag.try_from v = .error .InvalidTag) ∧
      (v / 256 % 256 &&& 0x80 = 0x80 → v % 256 &&& 0x80 ≠ 0x80 →
        ∃ t, Tag.try_from v = .ok t ∧ t.to_bytes = beDigits v)) ∧
    (2 ^ 24 ≤ v → Tag.try_from v = .error .TagIsRFU) := by
  refine ⟨fun h => by subst h; exact try_from_eq0, ?_, ?_, ?_, ?_⟩
  · intro h0 h1
    rw [try_from_eq1 v h0 (by omega)]
    constructor
    · intro hm; rw [if_pos hm]
    · intro hm
      rw [if_neg hm]
      refine ⟨_, rfl, ?_⟩
      rw [beDigits_eq1 v h0 (by omega)]
      rfl
  · intro h0 h1
    rw [try_from_eq2 v (by omega) (by omega)]
    constructor
    · intro hm; rw [if_pos hm]
    · intro hm
      rw [if_neg hm]
      refine ⟨_, rfl, ?_⟩
      rw [beDigits_eq2 v (by omega) (by omega)]
      rfl
  · intro h0 h1
    rw [try_from_eq3 v (by omega) (by omega)]
    constructor
    · rintro (hm | hm)
      · rw [if_pos hm]
      · by_cases hm1 : v / 256 % 256 &&& 0x80 = 0
        · rw [if_pos hm1]
        · rw [if_neg hm1, if_pos hm]
    · intro hm1 hm2
      rw [if_neg (by rw [hm1]; norm_num), if_neg hm2]
      refine ⟨_, rfl, ?_⟩
      rw [beDigits_eq3 v (by omega) (by omega)]
      rfl
  · intro h0
    exact try_from_eq4plus v (by omega) hv

/-- C3 (witness): the amended characterization at `0x7F22`, a two-byte
tag accepted with serialized bytes `[0x7F, 0x22]`. -/
theorem c3_witness :
    ∃ t, Tag.try_from 0x7f22 = .ok t ∧ t.to_bytes = beDigits 0x7f22 :=
  ((c3_try_from_ranges 0x7f22 (by norm_num)).2.2.1 (by norm_num) (by norm_num)).2 (by decide)

/-- C2: the code evaluated at the boundary the claim fixes.  A primitive
value of 127 bytes is emitted with the long-form length field
`[0x81, 0x7F]` (the serializer's branch tests `l < 0x7f`, excluding 127
from the short form), while the claim and the code's own `len_length`
table give a one-byte field for 127, so `Tlv::len` reports 129 bytes while
`Tlv::to_vec` emits 130. -/
theorem c2_len127 :
    (Tlv.mk ⟨[0, 0, 1], 1⟩ (.Primitive (List.replicate 127 0))).inner_len_to_vec =
      [0x81, 0x7f] ∧
    Tlv.len_length 127 = 1 ∧
    (Tlv.mk ⟨[0, 0, 1], 1⟩ (.Primitive (List.replicate 127 0))).to_vec.length = 130 ∧
    (Tlv.mk ⟨[0, 0, 1], 1⟩ (.Primitive (List.replicate 127 0))).len = 129 := by
  have hl : lenEncode 127 = [0x81, 0x7f] := rfl
  refine ⟨?_, rfl, ?_, ?_⟩
  · simp only [Tlv.inner_len_to_vec, Tlv.value, Value.len_as_bytes, List.length_replicate, hl]
  · simp only [Tlv.to_vec, Tlv.inner_len_to_vec, Tlv.value, Value.len_as_bytes,
      List.length_replicate, hl, Tag.to_bytes, List.length_append]
    rfl
  · simp only [Tlv.len, Value.len_as_bytes, List.length_replicate]
    norm_num [Tlv.len_length]

/-- C4: `Tlv::new` succeeds exactly when the tag's constructed flag agrees
with the value's shape, fails with the structural-inconsistency error
exactly when they disagree, and on success returns precisely the given
pair. -/
theorem c4_new_consistency (tag : Tag) (value : Value) :
    (Tlv.new tag value = .ok (.mk tag value) ↔
      tag.is_constructed = value.is_constructed) ∧
    (Tlv.new tag value = .error .Inconsistant ↔
      tag.is_constructed ≠ value.is_constructed) ∧
    (∀ t, Tlv.new tag value = .ok t → t = .mk tag value) := by
  cases value <;> cases htc : tag.is_constructed <;>
    simp [Tlv.new, Value.is_constructed, htc]

/-- C4 (witness): a matching pair is accepted as-is, a mismatched pair is
rejected with the inconsistency error. -/
theorem c4_witness :
    Tlv.new ⟨[0, 0, 1], 1⟩ (.Primitive []) = .ok (.mk ⟨[0, 0, 1], 1⟩ (.Primitive [])) ∧
    Tlv.new ⟨[0, 0, 0x22], 1⟩ (.Primitive []) = .error .Inconsistant :=
  ⟨(c4_new_consistency ⟨[0, 0, 1], 1⟩ (.Primitive [])).1.mpr (by decide),
   (c4_new_consistency ⟨[0, 0, 0x22], 1⟩ (.Primitive [])).2.1.mpr (by decide)⟩

lemma try_from_ne_invalid_input (v : Nat) : Tag.try_from v ≠ .error .InvalidInput := by
  simp only [Tag.try_from]
  repeat' split
  all_goals simp

lemma readCont_ne_invalid_input (value : Nat) (r : List Nat) :
    (Tag.readCont value r).1 ≠ .error .InvalidInput := by
  induction r generalizing value with
  | nil => simp [Tag.readCont]
  | cons x xs ih =>
    simp only [Tag.readCont]
    split
    · simp
    · exact ih _

lemma tag_read_ne_invalid_input (r : List Nat) : (Tag.read r).1 ≠ .error .InvalidInput := by
  cases r with
  | nil => simp [Tag.read]
  | cons first rest =>
    simp only [Tag.read]
    split
    · rcases h : Tag.readCont first rest with ⟨res, r1⟩
      have hne := readCont_ne_invalid_input first rest
      rw [h] at hne
      cases res with
      | error e => simp_all
      | ok value => simp [try_from_ne_invalid_input]
    · simpa using try_from_ne_invalid_input first

lemma readLenBytes_error_trunc (n : Nat) :
    ∀ (ret : Nat) (r : List Nat) (e : TlvError),
      (readLenBytes n ret r).1 = .error e → e = .TruncatedInput := by
  induction n with
  | zero => intro ret r e h; simp [readLenBytes] at h
  | succ n ih =>
    intro ret r e h
    cases r with
    | nil => simpa [readLenBytes] using h.symm
    | cons x r => exact ih _ r e (by simpa [readLenBytes] using h)

lemma read_len_ne_invalid_input (r : List Nat) : (Tlv.read_len r).1 ≠ .error .InvalidInput := by
  cases r with
  | nil => simp [Tlv.read_len]
  | cons x rest =>
    simp only [Tlv.read_len]
    split
    · split
      · simp
      · intro h
        have := readLenBytes_error_trunc _ _ _ _ h
        simp at this
    · simp

lemma readBytes_ne_invalid_input (len : Nat) (r : List Nat) :
    (readBytes len r).1 ≠ .error .InvalidInput := by
  simp only [readBytes]
  split <;> simp

lemma new_ne_invalid_input (tag : Tag) (value : Value) :
    Tlv.new tag value ≠ .error .InvalidInput := by
  simp only [Tlv.new]
  repeat' split
  all_goals simp

lemma read_ne_invalid_input (fuel : Nat) :
    (∀ r, (Tlv.read fuel r).1 ≠ .error .InvalidInput) ∧
    (∀ (len : Nat) (val : List Tlv) (r : List Nat),
      (Tlv.readChildren fuel len val r).1 ≠ .error .InvalidInput) := by
  induction fuel with
  | zero =>
    constructor
    · intro r; simp [Tlv.read]
    · intro len val r
      simp only [Tlv.readChildren]
      split <;> simp
  | succ f ih =>
    constructor
    · intro r
      simp only [Tlv.read]
      rcases h1 : Tag.read r with ⟨res1, r1⟩
      have hne1 := tag_read_ne_invalid_input r
      rw [h1] at hne1
      cases res1 with
      | error e => simp only [h1]; simpa using hne1
      | ok tag =>
        simp only [h1]
        rcases h2 : Tlv.read_len r1 with ⟨res2, r2⟩
        have hne2 := read_len_ne_invalid_input r1
        rw [h2] at hne2
        cases res2 with
        | error e => simp only [h2]; simpa using hne2
        | ok len =>
          simp only [h2]
          by_cases hc : tag.is_constructed = true
          · rw [if_pos hc]
            rcases h3 : Tlv.readChildren f len [] r2 with ⟨res3, r3⟩
            have hne3 := ih.2 len [] r2
            rw [h3] at hne3
            cases res3 with
            | error e => simp only [h3]; simpa using hne3
            | ok val =>
              simp only [h3]
              rcases h4 : Tlv.new tag (.Constructed val) with e | ret
              · have := new_ne_invalid_input tag (.Constructed val)
                rw [h4] at this
                simp only [h4]
                simpa using this
              · simp only [h4]
                split <;> simp

          · rw [if_neg hc]
            rcases h3 : readBytes len r2 with ⟨res3, r3⟩
            have hne3 := readBytes_ne_invalid_input len r2
            rw [h3] at hne3
            cases res3 with
            | error e => simp only [h3]; simpa using hne3
            | ok content =>
              simp only [h3]
              rcases h4 : Tlv.new tag (.Primitive content) with e | ret
              · have := new_ne_invalid_input tag (.Primitive content)
                rw [h4] at this
                simp only [h4]
                simpa using this
              · simp only [h4]
                split <;> simp
    · intro len val r
      simp only [Tlv.readChildren]
      split
      · rcases h : Tlv.read f r with ⟨res, r1⟩
        have hne := ih.1 r
        rw [h] at hne
        cases res with
        | error e => simp only [h]; simpa using hne
        | ok tlv => simp only [h]; exact ih.2 len (val ++ [tlv]) r1
      · simp

/-- C5: whenever `Tlv::read` succeeds, the returned node carries the
parsed tag and a value whose reported byte length equals the declared
length exactly; the concrete input `[0x22, 0x02, 0x01, 0x01, 0x00]`
(constructed tag, declared length 2, one child of full encoded length 3 —
an overshoot) fails with the structural-inconsistency error. -/
theorem c5_constructed_exact :
    (∀ (fuel : Nat) (input : List Nat) (t : Tlv) (rest r1 r2 : List Nat)
        (tag : Tag) (len : Nat),
      Tag.read input = (.ok tag, r1) →
      Tlv.read_len r1 = (.ok len, r2) →
      Tlv.read fuel input = (.ok t, rest) →
      t.tag = tag ∧ t.value.len_as_bytes = len) ∧
    Tlv.from_bytes [0x22, 2, 1, 1, 0] = .error .Inconsistant := by
  constructor
  · intro fuel input t rest r1 r2 tag len hTag hLen hread
    cases fuel with
    | zero => simp [Tlv.read] at hread
    | succ f =>
      simp only [Tlv.read, hTag, hLen] at hread
      by_cases hc : tag.is_constructed = true
      · rw [if_pos hc] at hread
        rcases h3 : Tlv.readChildren f len [] r2 with ⟨res3, r3⟩
        rw [h3] at hread
        cases res3 with
        | error e => simp at hread
        | ok val =>
          repeat' split at hread
          all_goals simp_all [Tlv.new, hc, Tlv.tag, Tlv.value, Value.len_as_bytes]
          all_goals (cases t with | mk t0 v0 => simp_all)
      · rw [if_neg hc] at hread
        rcases h3 : readBytes len r2 with ⟨res3, r3⟩
        rw [h3] at hread
        cases res3 with
        | error e => simp at hread
        | ok content =>
          repeat' split at hread
          all_goals simp_all [Tlv.new, hc, Tlv.tag, Tlv.value, Value.len_as_bytes]
          all_goals (cases t with | mk t0 v0 => simp_all)
  · rfl

/-- C5 (witness): the success characterization at the concrete node
decoded from `[0x01, 0x01, 0x00]`. -/
theorem c5_witness :
    (Tlv.mk ⟨[0, 0, 1], 1⟩ (.Primitive [0])).tag = ⟨[0, 0, 1], 1⟩ ∧
    (Tlv.mk ⟨[0, 0, 1], 1⟩ (.Primitive [0])).value.len_as_bytes = 1 :=
  c5_constructed_exact.1 2 [1, 1, 0] _ [] [1, 0] [0] ⟨[0, 0, 1], 1⟩ 1 rfl rfl rfl

/-- C6: `Tlv::parse` decodes one object and returns the unconsumed bytes;
`Tlv::from_bytes` fails with the invalid-input error exactly when that
remainder is non-empty (even if the consumed prefix was a valid object),
and otherwise returns whatever the decode produced; concretely,
`[0x01, 0x01, 0x00, 0xFF, 0xFF]` parses with a `[0xFF, 0xFF]` leftover
but fails through `Tlv::from_bytes`. -/
theorem c6_strict_vs_lenient :
    (∀ (input rest : List Nat) (res : Except TlvError Tlv),
      Tlv.parse input = (res, rest) →
      ((Tlv.from_bytes input = .error .InvalidInput ↔ rest ≠ []) ∧
       (rest = [] → Tlv.from_bytes input = res))) ∧
    (Tlv.parse [1, 1, 0, 0xff, 0xff] =
      (.ok (.mk ⟨[0, 0, 1], 1⟩ (.Primitive [0])), [0xff, 0xff]) ∧
     Tlv.from_bytes [1, 1, 0, 0xff, 0xff] = .error .InvalidInput) := by
  constructor
  · intro input rest res hp
    have hres : res ≠ .error .InvalidInput := by
      have h := (read_ne_invalid_input (input.length + 1)).1 input
      rw [show Tlv.read (input.length + 1) input = (res, rest) from hp] at h
      simpa using h
    constructor
    · constructor
      · intro hf
        intro hrest0
        rw [show Tlv.from_bytes input = res by
          simp [Tlv.from_bytes, hp, hrest0]] at hf
        exact hres hf
      · intro hrest
        have : rest.length ≠ 0 := by
          cases rest with
          | nil => simp at hrest
          | cons a as => simp
        simp [Tlv.from_bytes, hp, this]
    · intro hrest0
      simp [Tlv.from_bytes, hp, hrest0]
  · exact ⟨rfl, rfl⟩

/-- C6 (witness): the characterization at the concrete input
`[0x01, 0x01, 0x00, 0x09]`. -/
theorem c6_witness :
    (Tlv.from_bytes [1, 1, 0, 9] = .error .InvalidInput ↔ ([9] : List Nat) ≠ []) ∧
    (([9] : List Nat) = [] →
      Tlv.from_bytes [1, 1, 0, 9] = .ok (.mk ⟨[0, 0, 1], 1⟩ (.Primitive [0]))) :=
  c6_strict_vs_lenient.1 [1, 1, 0, 9] [9] (.ok (.mk ⟨[0, 0, 1], 1⟩ (.Primitive [0]))) rfl

/-- C7: decoding a length field reads one byte; a clear top bit makes that
byte the length; a set top bit makes the low seven bits a count `k`,
rejected with the invalid-length error exactly when `k > 4` (a shortage of
bytes surfaces as truncation, never as invalid length), and otherwise
exactly `k` further bytes are read and composed big-endian. -/
theorem c7_read_len (b : Nat) (rest : List Nat) :
    (b &&& 0x80 = 0 → Tlv.read_len (b :: rest) = (.ok b, rest)) ∧
    (b &&& 0x80 ≠ 0 →
      (4 < b &&& 0x7f → Tlv.read_len (b :: rest) = (.error .InvalidLength, rest)) ∧
      (b &&& 0x7f ≤ 4 → (Tlv.read_len (b :: rest)).1 ≠ .error .InvalidLength) ∧
      (b &&& 0x7f ≤ 4 → b &&& 0x7f ≤ rest.length →
        (∀ x ∈ rest.take (b &&& 0x7f), x < 256) →
        Tlv.read_len (b :: rest) =
          (.ok (beNat (rest.take (b &&& 0x7f))), rest.drop (b &&& 0x7f)))) := by
  constructor
  · intro hb
    simp only [Tlv.read_len]
    rw [if_neg (by simp [hb])]
  · intro hb
    refine ⟨?_, ?_, ?_⟩
    · intro h4
      simp only [Tlv.read_len]
      rw [if_pos hb, if_pos h4]
    · intro h4
      simp only [Tlv.read_len]
      rw [if_pos hb, if_neg (by omega)]
      exact readLenBytes_ne_invalid _ _ _
    · intro h4 hlen hx
      have hs := readLenBytes_spec (rest.take (b &&& 0x7f)) 0 (rest.drop (b &&& 0x7f)) hx
      rw [List.length_take, min_eq_left hlen, List.take_append_drop] at hs
      simp only [Tlv.read_len]
      rw [if_pos hb, if_neg (by omega)]
      exact hs

/-- C7 (witness): the composed two-byte long form `0x82 0x01 0x00`
decodes to 256, leaving the rest. -/
theorem c7_witness :
    Tlv.read_len (0x82 :: [1, 0, 9]) =
      (.ok (beNat (([1, 0, 9] : List Nat).take (0x82 &&& 0x7f))),
        ([1, 0, 9] : List Nat).drop (0x82 &&& 0x7f)) :=
  ((c7_read_len 0x82 [1, 0, 9]).2 (by decide)).2.2 (by decide) (by decide) (by decide)

/-- C9: the length decoder accepts every non-canonical long form: any
`k ≤ 4` bytes composing big-endian to `l` decode to `l`, including
oversized `k` and leading zero length bytes; consequently the distinct
inputs `[0x01, 0x81, 0x01, 0x09]` and `[0x01, 0x01, 0x09]` decode to the
same node. -/
theorem c9_noncanonical :
    (∀ (l k : Nat) (bs rest : List Nat), 1 ≤ k → k ≤ 4 → bs.length = k →
      (∀ b ∈ bs, b < 256) → beNat bs = l →
      Tlv.read_len ((0x80 ||| k) :: (bs ++ rest)) = (.ok l, rest)) ∧
    (Tlv.from_bytes [1, 0x81, 1, 9] = Tlv.from_bytes [1, 1, 9] ∧
     Tlv.from_bytes [1, 1, 9] = .ok (.mk ⟨[0, 0, 1], 1⟩ (.Primitive [9])) ∧
     ([1, 0x81, 1, 9] : List Nat) ≠ [1, 1, 9]) := by
  constructor
  · intro l k bs rest h1 h4 hlen hx hbe
    subst hbe
    have hor : (0x80 ||| k : Nat) = 128 + k := by
      have h := Nat.mul_add_lt_is_or (show k < 2 ^ 7 by omega) 1
      norm_num at h
      exact h.symm
    have h127 : (128 + k) &&& 0x7f = k := by
      rw [show (0x7f : Nat) = 127 from rfl, and127_eq]
      omega
    have h128 : (128 + k) &&& 0x80 ≠ 0 := by
      rw [show (0x80 : Nat) = 128 from rfl, and128_eq]
      have : (128 + k) / 128 = 1 := by omega
      omega
    rw [hor]
    simp only [Tlv.read_len]
    rw [if_pos h128, h127, if_neg (by omega)]
    rw [← hlen]
    exact readLenBytes_spec bs 0 rest hx
  · exact ⟨rfl, rfl, by decide⟩

/-- C9 (witness): the non-canonical form `0x81 0x05` decodes to length 5
like the canonical single byte `0x05` would. -/
theorem c9_witness :
    Tlv.read_len ((0x80 ||| 1) :: ([5] ++ [7, 7, 7, 7, 7])) = (.ok 5, [7, 7, 7, 7, 7]) :=
  c9_noncanonical.1 5 1 [5] [7, 7, 7, 7, 7] (by decide) (by decide) rfl (by decide) rfl

end ber

namespace simple

/-- C8: the code evaluated at the claimed boundary.  The documentation of
`simple::Tlv::new` promises rejection of values longer than 65 535 bytes,
but the implemented check rejects only values longer than 65 536 bytes: a
65 536-byte value is accepted, one byte past that is rejected. -/
theorem c8_boundary :
    Tlv.new ⟨1⟩ (List.replicate 65536 0) = .ok ⟨⟨1⟩, List.replicate 65536 0⟩ ∧
    Tlv.new ⟨1⟩ (List.replicate 65537 0) = .error .InvalidLength := by
  constructor
  · generalize hv : List.replicate 65536 (0 : Nat) = v
    have hlen : v.length = 65536 := by rw [← hv, List.length_replicate]
    simp [Tlv.new, hlen]
  · generalize hv : List.replicate 65537 (0 : Nat) = v
    have hlen : v.length = 65537 := by rw [← hv, List.length_replicate]
    simp [Tlv.new, hlen]

lemma to_vec_long (t : Tlv) (h : 255 ≤ t.value.length) :
    t.to_vec = t.tag.val :: 0xff :: ((t.value.length >>> 8) % 256) ::
      (t.value.length % 256) :: t.value := by
  simp [Tlv.to_vec, if_pos h]

lemma from_bytes_zero_len (v : List Nat) (hvne : v.isEmpty = false) :
    Tlv.from_bytes (1 :: 0xff :: 0 :: 0 :: v) = .error .InvalidInput := by
  have hread : Tlv.read (1 :: 0xff :: 0 :: 0 :: v) = (.ok ⟨⟨1⟩, []⟩, v) := by
    simp [Tlv.read, Tag.try_from, Tlv.read_len, ber.readBytes]
  simp [Tlv.from_bytes, Tlv.parse, hread, hvne]

lemma replicate65536_not_empty : (List.replicate 65536 (0 : Nat)).isEmpty = false := by
  rw [show (65536 : Nat) = 65535 + 1 from rfl, List.replicate_succ]
  rfl

/-- C10: `simple::Tlv::to_vec` writes only the low 16 bits of the payload
length in the long form (`0xFF`, `(len >> 8) as u8`, `len as u8`); for the
65 536-byte value that `simple::Tlv::new` accepts, the emitted length
bytes are `0xFF 0x00 0x00`, and re-decoding the serialization fails
instead of returning the object. -/
theorem c10_simple_len_truncation :
    (∀ (t : Tlv), 255 ≤ t.value.length →
      t.to_vec = t.tag.val :: 0xff :: ((t.value.length >>> 8) % 256) ::
        (t.value.length % 256) :: t.value) ∧
    (Tlv.new ⟨1⟩ (List.replicate 65536 0) = .ok ⟨⟨1⟩, List.replicate 65536 0⟩ ∧
     Tlv.to_vec ⟨⟨1⟩, List.replicate 65536 0⟩ =
       1 :: 0xff :: 0 :: 0 :: List.replicate 65536 0 ∧
     Tlv.from_bytes (Tlv.to_vec ⟨⟨1⟩, List.replicate 65536 0⟩) = .error .InvalidInput) := by
  have hvec : Tlv.to_vec ⟨⟨1⟩, List.replicate 65536 0⟩ =
      1 :: 0xff :: 0 :: 0 :: List.replicate 65536 0 := by
    rw [to_vec_long ⟨⟨1⟩, List.replicate 65536 0⟩ (by
      rw [show (Tlv.mk ⟨1⟩ (List.replicate 65536 0)).value = List.replicate 65536 0 from rfl,
        List.length_replicate]
      norm_num)]
    rw [show (Tlv.mk ⟨1⟩ (List.replicate 65536 0)).tag.val = 1 from rfl,
      show (Tlv.mk ⟨1⟩ (List.replicate 65536 0)).value = List.replicate 65536 0 from rfl,
      List.length_replicate,
      show ((65536 : Nat) >>> 8) % 256 = 0 from by decide,
      show (65536 : Nat) % 256 = 0 from by decide]
  have hnew : Tlv.new ⟨1⟩ (List.replicate 65536 0) = .ok ⟨⟨1⟩, List.replicate 65536 0⟩ := by
    generalize hv : List.replicate 65536 (0 : Nat) = v
    have hlen : v.length = 65536 := by rw [← hv, List.length_replicate]
    simp [Tlv.new, hlen]
  refine ⟨to_vec_long, hnew, hvec, ?_⟩
  rw [hvec]
  exact from_bytes_zero_len _ replicate65536_not_empty

/-- C10 (witness): the long-form length bytes at a 255-byte payload. -/
theorem c10_witness :
    Tlv.to_vec ⟨⟨2⟩, List.replicate 255 7⟩ = 2 :: 0xff :: 0 :: 255 :: List.replicate 255 7 := by
  rw [c10_simple_len_truncation.1 ⟨⟨2⟩, List.replicate 255 7⟩ (by
    rw [show (Tlv.mk ⟨2⟩ (List.replicate 255 7)).value = List.replicate 255 7 from rfl,
      List.length_replicate])]
  rw [show (Tlv.mk ⟨2⟩ (List.replicate 255 7)).tag.val = 2 from rfl,
    show (Tlv.mk ⟨2⟩ (List.replicate 255 7)).value = List.replicate 255 7 from rfl,
    List.length_replicate,
    show ((255 : Nat) >>> 8) % 256 = 0 from by decide,
    show (255 : Nat) % 256 = 255 from by decide]

end simple
